import Mathlib

/-!
# Verification of the Sainte-Laguë seat-allocation script

Shallow embedding of `src/Election.py` (`calc_saint_lague_method`) over exact
rationals.  The script allocates `numSeats` seats among parties by the
modified Sainte-Laguë divisor method and then computes, per party, the vote
margins needed to gain or lose extra seats.

Modelling notes:
* NumPy float arithmetic is modelled by `ℚ`.
* `np.argsort(quotients, axis=None)[::-1]` is modelled as the descending sort
  of all (party, rank) coordinates by quotient value; the order of coordinates
  with exactly equal quotients is modelled as the reverse of a stable
  ascending argsort, i.e. ties are ordered by descending flattened index
  (descending party index, then descending divisor rank).
* Indexing the ranking with a Python `int` (the two walks) wraps a negative
  index once and raises `IndexError` outside `[-len, len)`: modelled by
  `pyIdx` together with explicit range guards that return `none`.
* `seats_per_party` is a `np.uint32` array, so `seats_per_party[p] + k` and
  `seats_per_party[p] - k` are unsigned 32-bit arithmetic (`u32add`,
  `u32sub`): subtracting more than the stored count underflows to a huge
  nonnegative index whose lookup raises `IndexError` (`none`); it never
  becomes a wrapping negative Python index.
* The two `while` loops are modelled by the fuel-based `walkF`; a step whose
  lookup fails aborts with `none`, and the fuels dominate every run the
  Python code completes.
-/

namespace Election

/-- `max_extra_seats = 6`, fixed at the top of `calc_saint_lague_method`. -/
def max_extra_seats : ℕ := 6

/-- The divisor sequence: `divisors = 1.0 + np.array(range(numSeats + maxExtra)) * 2`
followed by `divisors[0] = first_divisor`. -/
def divisorSeq (numSeats maxExtra : ℕ) (fd : ℚ) : List ℚ :=
  ((List.range (numSeats + maxExtra)).map (fun i : ℕ => (1 : ℚ) + (i : ℚ) * 2)).set 0 fd

/-- The divisor sequence actually used by the script (`maxExtra = 6`). -/
def divisors (numSeats : ℕ) (fd : ℚ) : List ℚ := divisorSeq numSeats max_extra_seats fd

/-- `quotients[p, r] = votes[p] / divisors[r]`. -/
def quotients (votes : List ℕ) (divs : List ℚ) (c : ℕ × ℕ) : ℚ :=
  (votes.getD c.1 0 : ℚ) / divs.getD c.2 0

/-- All (party, rank) coordinates of the `P × L` quotient matrix. -/
def allCoords (P L : ℕ) : List (ℕ × ℕ) := List.range P ×ˢ List.range L

/-- Ordering of coordinates in the descending global ranking: larger quotient
first; on exactly equal quotients, larger flattened index (party-major) first,
which is what reversing a stable ascending argsort produces. -/
def rankRel (votes : List ℕ) (divs : List ℚ) (a b : ℕ × ℕ) : Prop :=
  quotients votes divs b < quotients votes divs a ∨
    (quotients votes divs a = quotients votes divs b ∧
      (b.1 < a.1 ∨ (b.1 = a.1 ∧ b.2 ≤ a.2)))

instance rankRel.decRel (votes : List ℕ) (divs : List ℚ) :
    DecidableRel (rankRel votes divs) := fun a b => by
  unfold rankRel; infer_instance

instance rankRel.isTotal (votes : List ℕ) (divs : List ℚ) :
    IsTotal (ℕ × ℕ) (rankRel votes divs) := by
  constructor
  intro a b
  rcases lt_trichotomy (quotients votes divs a) (quotients votes divs b) with h | h | h
  · exact Or.inr (Or.inl h)
  · rcases Nat.lt_trichotomy a.1 b.1 with h1 | h1 | h1
    · exact Or.inr (Or.inr ⟨h.symm, Or.inl h1⟩)
    · rcases Nat.le_total a.2 b.2 with h2 | h2
      · exact Or.inr (Or.inr ⟨h.symm, Or.inr ⟨h1, h2⟩⟩)
      · exact Or.inl (Or.inr ⟨h, Or.inr ⟨h1.symm, h2⟩⟩)
    · exact Or.inl (Or.inr ⟨h, Or.inl h1⟩)
  · exact Or.inl (Or.inl h)

instance rankRel.isTrans (votes : List ℕ) (divs : List ℚ) :
    IsTrans (ℕ × ℕ) (rankRel votes divs) := by
  constructor
  intro a b c hab hbc
  rcases hab with hab | ⟨hqab, hab⟩
  · rcases hbc with hbc | ⟨hqbc, _⟩
    · exact Or.inl (hbc.trans hab)
    · exact Or.inl (hqbc ▸ hab)
  · rcases hbc with hbc | ⟨hqbc, hbc⟩
    · exact Or.inl (hqab ▸ hbc)
    · refine Or.inr ⟨hqab.trans hqbc, ?_⟩
      rcases hab with hab | ⟨hab1, hab2⟩ <;> rcases hbc with hbc | ⟨hbc1, hbc2⟩ <;> omega

instance rankRel.isAntisymm (votes : List ℕ) (divs : List ℚ) :
    IsAntisymm (ℕ × ℕ) (rankRel votes divs) := by
  constructor
  intro a b hab hba
  rcases hab with hab | ⟨hqab, hab⟩
  · rcases hba with hba | ⟨hqba, _⟩
    · exact absurd (hab.trans hba) (lt_irrefl _)
    · exact absurd hab (hqba ▸ lt_irrefl _)
  · rcases hba with hba | ⟨hqba, hba⟩
    · exact absurd hba (hqab ▸ lt_irrefl _)
    · have h1 : a.1 = b.1 := by
        rcases hab with h | ⟨h, _⟩ <;> rcases hba with h' | ⟨h', _⟩ <;> omega
      have h2 : a.2 = b.2 := by
        rcases hab with h | ⟨_, h⟩ <;> rcases hba with h' | ⟨_, h'⟩ <;> omega
      exact Prod.ext h1 h2

/-- `np.argsort(quotients, axis=None)[::-1]` converted back to coordinates:
the full descending ranking of all `P·L` coordinates. -/
def globalRanking (votes : List ℕ) (numSeats : ℕ) (fd : ℚ) : List (ℕ × ℕ) :=
  List.insertionSort (rankRel votes (divisors numSeats fd))
    (allCoords votes.length (numSeats + max_extra_seats))

/-- `seats_per_party[p]`: one seat per coordinate of party `p` among the first
`numSeats` entries of the ranking. -/
def seats_per_party (votes : List ℕ) (numSeats : ℕ) (fd : ℚ) (p : ℕ) : ℕ :=
  (((globalRanking votes numSeats fd).take numSeats).filter (fun c => c.1 == p)).length

/-- Python list / array indexing: a negative index wraps to the end. -/
def pyIdx (len : ℕ) (i : ℤ) : ℕ := (if i < 0 then (len : ℤ) + i else i).toNat

/-- `party_dim`: the party component of each ranking position. -/
def pdList (votes : List ℕ) (numSeats : ℕ) (fd : ℚ) : List ℕ :=
  (globalRanking votes numSeats fd).map Prod.fst

/-- The script's validation: `assert` on the metadata lengths and `numSeats > 0`. -/
def validInput (votes : List ℕ) (names colors : List String) (numSeats : ℤ) : Bool :=
  (names.length == votes.length) && (colors.length == votes.length) && decide (0 < numSeats)

/-- The entry point with its `assert`s checked before anything is computed.
The payload is the seat-count vector. -/
def calcSaintLague (votes : List ℕ) (names colors : List String) (numSeats : ℤ)
    (fd : ℚ) : Except String (List ℕ) :=
  if validInput votes names colors numSeats then
    .ok ((List.range votes.length).map (seats_per_party votes numSeats.toNat fd))
  else
    .error "assertion failed"

/-- `2^32`: the modulus of the `np.uint32` entries of `seats_per_party`
(`np.zeros(num_parties, np.uint32)`, line 27). -/
def U32 : ℕ := 4294967296

/-- `np.uint32` addition of a stored seat count and a small Python int:
the result stays an unsigned 32-bit value. -/
def u32add (a b : ℕ) : ℕ := (a % U32 + b % U32) % U32

/-- `np.uint32` subtraction of a small Python int from a stored seat count:
for `a < b` the value underflows to `2^32 - (b - a)`; it is always treated as
a (huge) nonnegative index, never as a wrapping negative Python index. -/
def u32sub (a b : ℕ) : ℕ := (a % U32 + (U32 - b % U32)) % U32

/-- `party_dim[i]` for a Python int index `i`: a negative index wraps once to
the end, and anything outside `[-len, len)` raises `IndexError` (`none`). -/
def partyAt (votes : List ℕ) (numSeats : ℕ) (fd : ℚ) (i : ℤ) : Option ℕ :=
  if -((pdList votes numSeats fd).length : ℤ) ≤ i ∧
      i < ((pdList votes numSeats fd).length : ℤ) then
    some ((pdList votes numSeats fd).getD (pyIdx (pdList votes numSeats fd).length i) 0)
  else none

/-- One step of a ranking walk: fuel-based model of the two `while` loops.
A step `s+1` whose test is `true` decreases the number `w` of positions still
to be found; a step whose index lookup raises `IndexError` aborts the whole
computation (`none`).  Exhausted fuel is also `none`; on the fuels used below
this coincides with the step at which the Python loop would raise. -/
def walkF (q : ℕ → Option Bool) : ℕ → ℕ → ℕ → Option ℕ
  | _, s, 0 => some s
  | 0, _, _ + 1 => none
  | fuel + 1, s, w + 1 =>
    match q (s + 1) with
    | none => none
    | some true => walkF q fuel (s + 1) w
    | some false => walkF q fuel (s + 1) (w + 1)

/-- Gain-side step test: `p != party_dim[num_seats - seats_to_overtake]`
(line 60); the index is a Python int, so it may wrap once or raise. -/
def gainStep (votes : List ℕ) (numSeats : ℕ) (fd : ℚ) (p : ℕ) (s : ℕ) : Option Bool :=
  (partyAt votes numSeats fd ((numSeats : ℤ) - (s : ℤ))).map (fun q => decide (¬ q = p))

/-- The gain-side walk (`seats_to_overtake` at loop exit). -/
def seats_to_overtake (votes : List ℕ) (numSeats : ℕ) (fd : ℚ) (p wanted : ℕ) : Option ℕ :=
  walkF (gainStep votes numSeats fd p)
    (numSeats + (pdList votes numSeats fd).length) 0 wanted

/-- The body of the gain computation after the walk (lines 63-71):
`ceil((quotient_to_overtake - quotients[p, total-1]) * divisors[total-1])`,
where `total = seats_per_party[p] + seats_to_overtake` is `np.uint32`
arithmetic and an out-of-range lookup raises `IndexError` (`none`). -/
def gainMarginBody (votes : List ℕ) (numSeats : ℕ) (fd : ℚ) (p : ℕ) (s : ℕ) : Option ℤ :=
  if (-(((globalRanking votes numSeats fd).length : ℤ)) ≤ (numSeats : ℤ) - (s : ℤ) ∧
        (numSeats : ℤ) - (s : ℤ) < ((globalRanking votes numSeats fd).length : ℤ)) ∧
      p < votes.length ∧
      u32sub (u32add (seats_per_party votes numSeats fd p) s) 1 <
        (divisors numSeats fd).length then
    some ⌈(quotients votes (divisors numSeats fd)
        ((globalRanking votes numSeats fd).getD
          (pyIdx (globalRanking votes numSeats fd).length ((numSeats : ℤ) - (s : ℤ))) (0, 0)) -
      quotients votes (divisors numSeats fd)
        (p, u32sub (u32add (seats_per_party votes numSeats fd p) s) 1)) *
      (divisors numSeats fd).getD
        (u32sub (u32add (seats_per_party votes numSeats fd p) s) 1) 0⌉
  else none

/-- `votes_needed[p, wanted-1]` of the gain loop. -/
def gainMargin (votes : List ℕ) (numSeats : ℕ) (fd : ℚ) (p wanted : ℕ) : Option ℤ :=
  (seats_to_overtake votes numSeats fd p wanted).bind (gainMarginBody votes numSeats fd p)

/-- Loss-side step test: `p != party_dim[num_seats - 1 + seats_to_fall_behind]`
(line 106); past the end of the ranking it raises `IndexError`. -/
def lossStep (votes : List ℕ) (numSeats : ℕ) (fd : ℚ) (p : ℕ) (s : ℕ) : Option Bool :=
  (partyAt votes numSeats fd ((numSeats : ℤ) - 1 + (s : ℤ))).map (fun q => decide (¬ q = p))

/-- The loss-side walk (`seats_to_fall_behind` at loop exit). -/
def seats_to_fall_behind (votes : List ℕ) (numSeats : ℕ) (fd : ℚ) (p wanted : ℕ) : Option ℕ :=
  walkF (lossStep votes numSeats fd p) (pdList votes numSeats fd).length 0 wanted

/-- The body of the loss computation after the walk (lines 109-119):
`ceil((quotients[p, total] - quotient_to_lose) * divisors[total])` with
`total = seats_per_party[p] - seats_to_fall_behind` computed in `np.uint32`:
when the walk passed more positions than `p` holds seats, the subtraction
underflows to a huge unsigned index and the lookup raises `IndexError`
(`none`). -/
def lossMarginBody (votes : List ℕ) (numSeats : ℕ) (fd : ℚ) (p : ℕ) (s : ℕ) : Option ℤ :=
  if (-(((globalRanking votes numSeats fd).length : ℤ)) ≤ (numSeats : ℤ) - 1 + (s : ℤ) ∧
        (numSeats : ℤ) - 1 + (s : ℤ) < ((globalRanking votes numSeats fd).length : ℤ)) ∧
      p < votes.length ∧
      u32sub (seats_per_party votes numSeats fd p) s < (divisors numSeats fd).length then
    some ⌈(quotients votes (divisors numSeats fd)
        (p, u32sub (seats_per_party votes numSeats fd p) s) -
      quotients votes (divisors numSeats fd)
        ((globalRanking votes numSeats fd).getD
          (pyIdx (globalRanking votes numSeats fd).length
            ((numSeats : ℤ) - 1 + (s : ℤ))) (0, 0))) *
      (divisors numSeats fd).getD (u32sub (seats_per_party votes numSeats fd p) s) 0⌉
  else none

/-- `votes_needed[p, wanted-1]` of the loss loop. -/
def lossMargin (votes : List ℕ) (numSeats : ℕ) (fd : ℚ) (p wanted : ℕ) : Option ℤ :=
  (seats_to_fall_behind votes numSeats fd p wanted).bind (lossMarginBody votes numSeats fd p)

/-- `cnt q s len` counts the steps `j ∈ (s, s + len]` with `q j = true`. -/
def cnt (q : ℕ → Bool) : ℕ → ℕ → ℕ
  | _, 0 => 0
  | s, len + 1 => (if q (s + 1) then 1 else 0) + cnt q (s + 1) len

/-- Least argument `≥ s` (within `fuel` tries) satisfying a predicate. -/
def leastFrom (q : ℕ → Bool) : ℕ → ℕ → Option ℕ
  | 0, _ => none
  | fuel + 1, s => if q s then some s else leastFrom q fuel (s + 1)

/-- Modelled from the spec (§4.4): the step test of the backward walk, written
with plain (non-wrapping) arithmetic as the spec describes it: position
`numSeats - s` does not belong to party `p`. -/
def specGainStep (votes : List ℕ) (numSeats : ℕ) (fd : ℚ) (p : ℕ) (s : ℕ) : Bool :=
  decide (¬ (pdList votes numSeats fd).getD (numSeats - s) 0 = p)

/-- Modelled from the spec (§4.4): the number of positions walked backward from
ranking position `numSeats - 1` until `g` positions not belonging to `p` have
been passed — the least `s` whose walked window contains exactly `g` such
positions. -/
def specGainWalked (votes : List ℕ) (numSeats : ℕ) (fd : ℚ) (p g : ℕ) : Option ℕ :=
  leastFrom (fun s => cnt (specGainStep votes numSeats fd p) 0 s == g) (numSeats + 1) 0

/-- Modelled from the spec (§4.4): the gain-margin formula
`ceil((Qstar - votes[p]/divisors[k-1]) * divisors[k-1])` with
`k = seatsPerParty[p] + walked`; a required rank beyond the divisor range is a
capacity error (spec §4.3/§7), modelled as `none`. -/
def specGainMargin (votes : List ℕ) (numSeats : ℕ) (fd : ℚ) (p g : ℕ) : Option ℤ :=
  (specGainWalked votes numSeats fd p g).bind (fun s : ℕ =>
    if p < votes.length ∧
        seats_per_party votes numSeats fd p + s - 1 < (divisors numSeats fd).length ∧
        numSeats - s < (globalRanking votes numSeats fd).length then
      some ⌈(quotients votes (divisors numSeats fd)
          ((globalRanking votes numSeats fd).getD (numSeats - s) (0, 0)) -
        (votes.getD p 0 : ℚ) /
          (divisors numSeats fd).getD (seats_per_party votes numSeats fd p + s - 1) 0) *
        (divisors numSeats fd).getD (seats_per_party votes numSeats fd p + s - 1) 0⌉
    else none)

/-- Modelled from the spec (§4.5): the step test of the forward walk, written
with plain arithmetic as the spec describes it: position `numSeats - 1 + s`
does not belong to party `p`. -/
def specLossStep (votes : List ℕ) (numSeats : ℕ) (fd : ℚ) (p : ℕ) (s : ℕ) : Bool :=
  decide (¬ (pdList votes numSeats fd).getD (numSeats - 1 + s) 0 = p)

/-- Modelled from the spec (§4.5): the number of positions walked forward from
ranking position `numSeats` until `l` positions not belonging to `p` have been
passed. -/
def specLossWalked (votes : List ℕ) (numSeats : ℕ) (fd : ℚ) (p l : ℕ) : Option ℕ :=
  leastFrom (fun s => cnt (specLossStep votes numSeats fd p) 0 s == l)
    ((pdList votes numSeats fd).length + 1) 0

/-- Modelled from the spec (§4.5, the claim's wording): the loss-margin
formula `ceil((votes[p]/divisors[k] - Qstar) * divisors[k])` with
`k = seatsPerParty[p] - l` exactly as the spec words it; ranks outside the
available range are a capacity error (`none`). -/
def specLossMargin (votes : List ℕ) (numSeats : ℕ) (fd : ℚ) (p l : ℕ) : Option ℤ :=
  (specLossWalked votes numSeats fd p l).bind (fun s : ℕ =>
    if p < votes.length ∧
        seats_per_party votes numSeats fd p - l < (divisors numSeats fd).length ∧
        numSeats - 1 + s < (globalRanking votes numSeats fd).length then
      some ⌈((votes.getD p 0 : ℚ) /
          (divisors numSeats fd).getD (seats_per_party votes numSeats fd p - l) 0 -
        quotients votes (divisors numSeats fd)
          ((globalRanking votes numSeats fd).getD (numSeats - 1 + s) (0, 0))) *
        (divisors numSeats fd).getD (seats_per_party votes numSeats fd p - l) 0⌉
    else none)

/-- The loss-margin formula as the code actually computes it when it computes
anything: `k = seatsPerParty[p] - walked`, where `walked` counts every passed
position (including `p`'s own); when `walked > seatsPerParty[p]` the uint32
subtraction underflows, the lookup fails, and no margin is produced (`none`). -/
def amendedLossMargin (votes : List ℕ) (numSeats : ℕ) (fd : ℚ) (p l : ℕ) : Option ℤ :=
  (specLossWalked votes numSeats fd p l).bind (fun s : ℕ =>
    if p < votes.length ∧ s ≤ seats_per_party votes numSeats fd p ∧
        seats_per_party votes numSeats fd p - s < (divisors numSeats fd).length ∧
        numSeats - 1 + s < (globalRanking votes numSeats fd).length then
      some ⌈((votes.getD p 0 : ℚ) /
          (divisors numSeats fd).getD (seats_per_party votes numSeats fd p - s) 0 -
        quotients votes (divisors numSeats fd)
          ((globalRanking votes numSeats fd).getD (numSeats - 1 + s) (0, 0))) *
        (divisors numSeats fd).getD (seats_per_party votes numSeats fd p - s) 0⌉
    else none)

lemma divisorSeq_length (n m : ℕ) (fd : ℚ) : (divisorSeq n m fd).length = n + m := by
  unfold divisorSeq
  rw [List.length_set, List.length_map, List.length_range]

lemma divisorSeq_getD (n m : ℕ) (fd : ℚ) (i : ℕ) (hi : i < n + m) :
    (divisorSeq n m fd).getD i 0 = if i = 0 then fd else 1 + (i : ℚ) * 2 := by
  have hlen : ((List.range (n + m)).map (fun i : ℕ => (1 : ℚ) + (i : ℚ) * 2)).length = n + m := by
    rw [List.length_map, List.length_range]
  rcases Nat.eq_zero_or_pos i with h0 | h0
  · subst h0
    rw [List.getD, List.get?_eq_getElem?, divisorSeq,
      List.getElem?_set_eq_of_lt _ (by rw [hlen]; omega)]
    simp
  · have hne : i ≠ 0 := Nat.pos_iff_ne_zero.mp h0
    rw [List.getD, List.get?_eq_getElem?, divisorSeq, List.getElem?_set_ne (by omega),
      List.getElem?_map, List.getElem?_range hi]
    simp [hne]

lemma globalRanking_perm (votes : List ℕ) (n : ℕ) (fd : ℚ) :
    (globalRanking votes n fd).Perm (allCoords votes.length (n + max_extra_seats)) :=
  List.perm_insertionSort _ _

lemma globalRanking_length (votes : List ℕ) (n : ℕ) (fd : ℚ) :
    (globalRanking votes n fd).length = votes.length * (n + max_extra_seats) := by
  rw [(globalRanking_perm votes n fd).length_eq, allCoords, List.length_product,
    List.length_range, List.length_range]

lemma mem_globalRanking (votes : List ℕ) (n : ℕ) (fd : ℚ) (c : ℕ × ℕ) :
    c ∈ globalRanking votes n fd ↔ c.1 < votes.length ∧ c.2 < n + max_extra_seats := by
  rw [(globalRanking_perm votes n fd).mem_iff, allCoords]
  rcases c with ⟨p, r⟩
  rw [List.mem_product, List.mem_range, List.mem_range]

lemma sum_count_fst (l : List (ℕ × ℕ)) (P : ℕ) (h : ∀ c ∈ l, c.1 < P) :
    (Finset.range P).sum (fun p => (l.filter (fun c => c.1 == p)).length) = l.length := by
  induction l with
  | nil => simp
  | cons c t ih =>
    have hc : c.1 < P := h c (List.mem_cons_self _ _)
    have ht : ∀ x ∈ t, x.1 < P := fun x hx => h x (List.mem_cons_of_mem _ hx)
    have hsplit : ∀ p : ℕ,
        (((c :: t).filter (fun x => x.1 == p)).length) =
          (if c.1 = p then 1 else 0) + (t.filter (fun x => x.1 == p)).length := by
      intro p
      by_cases hp : c.1 = p <;> simp [List.filter_cons, hp, Nat.add_comm]
    rw [Finset.sum_congr rfl (fun p _ => hsplit p), Finset.sum_add_distrib, ih ht]
    have hone : (Finset.range P).sum (fun p => if c.1 = p then 1 else 0) = 1 := by
      rw [Finset.sum_ite_eq]
      simp [Finset.mem_range.mpr hc]
    rw [hone, List.length_cons]
    omega

/-- C1: seat conservation — for `0 < numSeats ≤ P·L` the seat counts of all
parties sum to exactly `numSeats`. -/
theorem seats_sum_eq (votes : List ℕ) (n : ℕ) (fd : ℚ) (_h0 : 0 < n)
    (hn : n ≤ votes.length * (n + max_extra_seats)) :
    (Finset.range votes.length).sum (seats_per_party votes n fd) = n := by
  have hlen := globalRanking_length votes n fd
  have htake : ((globalRanking votes n fd).take n).length = n := by
    rw [List.length_take]; omega
  have hmem : ∀ c ∈ (globalRanking votes n fd).take n, c.1 < votes.length := by
    intro c hc
    have hmem' : c ∈ globalRanking votes n fd := (List.take_sublist _ _).subset hc
    exact ((mem_globalRanking votes n fd c).mp hmem').1
  unfold seats_per_party
  rw [sum_count_fst _ _ hmem, htake]

theorem seats_sum_eq_witness :
    0 < 2 ∧ 2 ≤ 2 * (2 + max_extra_seats) ∧
      (Finset.range 2).sum (seats_per_party [10, 5] 2 (6/5)) = 2 :=
  ⟨by decide, by decide, by
    have h := seats_sum_eq [10, 5] 2 (6/5) (by decide) (by decide)
    simpa using h⟩

lemma globalRanking_sorted (votes : List ℕ) (n : ℕ) (fd : ℚ) :
    (globalRanking votes n fd).Sorted (rankRel votes (divisors n fd)) :=
  List.sorted_insertionSort _ _

lemma globalRanking_nodup (votes : List ℕ) (n : ℕ) (fd : ℚ) :
    (globalRanking votes n fd).Nodup := by
  refine (globalRanking_perm votes n fd).nodup_iff.mpr ?_
  rw [allCoords]
  exact List.Nodup.product (List.nodup_range _) (List.nodup_range _)

/-- C6 (amended): the global ranking is sorted by descending quotient with
ties broken by descending flattened index, and it is the unique such
arrangement of the coordinates — so identical inputs give identical outputs. -/
theorem tie_break_amended (votes : List ℕ) (n : ℕ) (fd : ℚ) :
    (globalRanking votes n fd).Sorted (rankRel votes (divisors n fd)) ∧
    ∀ l : List (ℕ × ℕ), l.Perm (allCoords votes.length (n + max_extra_seats)) →
      l.Sorted (rankRel votes (divisors n fd)) → l = globalRanking votes n fd := by
  refine ⟨globalRanking_sorted votes n fd, fun l hperm hsort => ?_⟩
  exact List.eq_of_perm_of_sorted (hperm.trans (globalRanking_perm votes n fd).symm)
    hsort (globalRanking_sorted votes n fd)

theorem tie_break_amended_witness :
    (globalRanking [1, 1] 1 (6/5)).Sorted (rankRel [1, 1] (divisors 1 (6/5))) ∧
    globalRanking [1, 1] 1 (6/5) = globalRanking [1, 1] 1 (6/5) :=
  ⟨(tie_break_amended [1, 1] 1 (6/5)).1,
   (tie_break_amended [1, 1] 1 (6/5)).2 (globalRanking [1, 1] 1 (6/5))
     (globalRanking_perm [1, 1] 1 (6/5)) (tie_break_amended [1, 1] 1 (6/5)).1⟩

lemma divisors_getD_pos (n : ℕ) (fd : ℚ) (hfd : 0 < fd) (i : ℕ)
    (hi : i < n + max_extra_seats) : 0 < (divisors n fd).getD i 0 := by
  rw [divisors, divisorSeq_getD _ _ _ i hi]
  split
  · exact hfd
  · positivity

lemma divisors_getD_strictMono (n : ℕ) (fd : ℚ) (hfd3 : fd < 3) {i j : ℕ}
    (hij : i < j) (hj : j < n + max_extra_seats) :
    (divisors n fd).getD i 0 < (divisors n fd).getD j 0 := by
  rw [divisors, divisorSeq_getD _ _ _ i (by omega), divisorSeq_getD _ _ _ j hj]
  have hj0 : ¬ (j = 0) := by omega
  rw [if_neg hj0]
  by_cases hi0 : i = 0
  · rw [if_pos hi0]
    have h1 : (1 : ℚ) ≤ (j : ℚ) := by exact_mod_cast Nat.one_le_iff_ne_zero.mpr hj0
    linarith
  · rw [if_neg hi0]
    have h1 : (i : ℚ) < (j : ℚ) := by exact_mod_cast hij
    linarith

/-- For a party with positive votes and `0 < firstDivisor < 3`, its quotients
are strictly decreasing in the divisor rank. -/
lemma quotients_strict (votes : List ℕ) (n : ℕ) (fd : ℚ) (p : ℕ)
    (hv : 0 < votes.getD p 0) (hfd0 : 0 < fd) (hfd3 : fd < 3) {r r' : ℕ}
    (hrr : r < r') (hr' : r' < n + max_extra_seats) :
    quotients votes (divisors n fd) (p, r') < quotients votes (divisors n fd) (p, r) := by
  unfold quotients
  simp only
  have hd1 : 0 < (divisors n fd).getD r 0 := divisors_getD_pos n fd hfd0 r (by omega)
  have hd2 : 0 < (divisors n fd).getD r' 0 := divisors_getD_pos n fd hfd0 r' hr'
  have hdm : (divisors n fd).getD r 0 < (divisors n fd).getD r' 0 :=
    divisors_getD_strictMono n fd hfd3 hrr hr'
  have hvq : (0 : ℚ) < (votes.getD p 0 : ℚ) := by exact_mod_cast hv
  rw [div_lt_div_iff₀ hd2 hd1]
  exact mul_lt_mul_of_pos_left hdm hvq

/-- A downward-closed finite set of naturals is an initial segment. -/
lemma finset_downward_eq_range (F : Finset ℕ)
    (hdc : ∀ r ∈ F, ∀ r', r' < r → r' ∈ F) : F = Finset.range F.card := by
  have hsub : F ⊆ Finset.range F.card := by
    intro r hr
    rw [Finset.mem_range]
    by_contra hge
    push_neg at hge
    have hsub2 : Finset.range (r + 1) ⊆ F := by
      intro x hx
      rw [Finset.mem_range] at hx
      rcases Nat.lt_succ_iff_lt_or_eq.mp hx with h | h
      · exact hdc r hr x h
      · subst h; exact hr
    have hcard := Finset.card_le_card hsub2
    rw [Finset.card_range] at hcard
    omega
  exact Finset.eq_of_subset_of_card_le hsub (by rw [Finset.card_range])

/-- C7 (amended): for a party `p` with positive votes, provided
`0 < firstDivisor < 3` (so the divisor sequence is strictly increasing from
index 0 as well), the divisor ranks at which `p` appears among the first
`numSeats` ranking entries are exactly `{0, …, seatsPerParty[p]-1}`. -/
theorem rank_contiguity_amended (votes : List ℕ) (n : ℕ) (fd : ℚ) (p : ℕ)
    (hv : 0 < votes.getD p 0) (hfd0 : 0 < fd) (hfd3 : fd < 3) :
    ∀ r : ℕ, (p, r) ∈ (globalRanking votes n fd).take n ↔
      r < seats_per_party votes n fd p := by
  have hp : p < votes.length := by
    by_contra h
    push_neg at h
    rw [List.getD_eq_default _ _ h] at hv
    exact absurd hv (lt_irrefl 0)
  -- downward closure of the set of seated ranks of p
  have hdc : ∀ r r' : ℕ, r' < r → (p, r) ∈ (globalRanking votes n fd).take n →
      (p, r') ∈ (globalRanking votes n fd).take n := by
    intro r r' hlt hmem
    have hmem_rk : (p, r) ∈ globalRanking votes n fd :=
      (List.take_sublist _ _).subset hmem
    have hr : r < n + max_extra_seats := ((mem_globalRanking votes n fd _).mp hmem_rk).2
    have hmem'_rk : (p, r') ∈ globalRanking votes n fd :=
      (mem_globalRanking votes n fd _).mpr ⟨hp, by omega⟩
    have hsplit : globalRanking votes n fd =
        (globalRanking votes n fd).take n ++ (globalRanking votes n fd).drop n :=
      (List.take_append_drop n _).symm
    rcases List.mem_append.mp (hsplit ▸ hmem'_rk) with h | h
    · exact h
    · exfalso
      have hpair : List.Pairwise (rankRel votes (divisors n fd))
          ((globalRanking votes n fd).take n ++ (globalRanking votes n fd).drop n) := by
        rw [← hsplit]; exact globalRanking_sorted votes n fd
      have hrel := (List.pairwise_append.mp hpair).2.2 _ hmem _ h
      have hq : quotients votes (divisors n fd) (p, r) <
          quotients votes (divisors n fd) (p, r') :=
        quotients_strict votes n fd p hv hfd0 hfd3 hlt hr
      rcases hrel with hrel | ⟨hrel, _⟩
      · exact absurd (hq.trans hrel) (lt_irrefl _)
      · rw [hrel] at hq
        exact absurd hq (lt_irrefl _)
  -- the list of seated ranks of p
  have hmemS : ∀ r : ℕ,
      r ∈ (((globalRanking votes n fd).take n).filter (fun c => c.1 == p)).map Prod.snd ↔
        (p, r) ∈ (globalRanking votes n fd).take n := by
    intro r
    constructor
    · intro hr
      obtain ⟨c, hc, hcr⟩ := List.mem_map.mp hr
      obtain ⟨hc1, hc2⟩ := List.mem_filter.mp hc
      rcases c with ⟨cp, cr⟩
      simp only [beq_iff_eq] at hc2
      simp only at hcr
      subst hc2
      subst hcr
      exact hc1
    · intro hmem
      exact List.mem_map.mpr ⟨(p, r), List.mem_filter.mpr ⟨hmem, by simp⟩, rfl⟩
  have hSnodup :
      ((((globalRanking votes n fd).take n).filter (fun c => c.1 == p)).map Prod.snd).Nodup := by
    have h1 : ((globalRanking votes n fd).take n).Nodup :=
      (List.take_sublist _ _).nodup (globalRanking_nodup votes n fd)
    refine (h1.filter _).map_on ?_
    intro x hx y hy hxy
    obtain ⟨_, hx2⟩ := List.mem_filter.mp hx
    obtain ⟨_, hy2⟩ := List.mem_filter.mp hy
    simp only [beq_iff_eq] at hx2 hy2
    rcases x with ⟨xp, xr⟩
    rcases y with ⟨yp, yr⟩
    simp only at hx2 hy2 hxy
    subst hx2; subst hy2; subst hxy
    rfl
  have hcard :
      ((((globalRanking votes n fd).take n).filter (fun c => c.1 == p)).map Prod.snd).toFinset.card
        = seats_per_party votes n fd p := by
    rw [List.toFinset_card_of_nodup hSnodup, List.length_map]
    rfl
  have hdcF : ∀ r ∈
      ((((globalRanking votes n fd).take n).filter (fun c => c.1 == p)).map Prod.snd).toFinset,
      ∀ r', r' < r →
        r' ∈ ((((globalRanking votes n fd).take n).filter (fun c => c.1 == p)).map
          Prod.snd).toFinset := by
    intro r hr r' hlt
    rw [List.mem_toFinset, hmemS] at hr ⊢
    exact hdc r r' hlt hr
  have hrange := finset_downward_eq_range _ hdcF
  intro r
  rw [← hmemS, ← List.mem_toFinset, hrange, Finset.mem_range, hcard]

theorem rank_contiguity_amended_witness :
    (0 : ℕ) < [10, 5].getD 0 0 ∧
      (((0, 0) : ℕ × ℕ) ∈ (globalRanking [10, 5] 2 (6/5)).take 2 ↔
        0 < seats_per_party [10, 5] 2 (6/5) 0) :=
  ⟨by decide,
   rank_contiguity_amended [10, 5] 2 (6/5) 0 (by decide) (by norm_num) (by norm_num) 0⟩

/-- C8: the divisor sequence has length `numSeats + maxExtraSeats`, entry 0 is
`firstDivisor`, entry `i ≥ 1` is `2i+1`, and it is strictly increasing on
indices `≥ 1`. -/
theorem divisor_seq_correct (n maxE : ℕ) (fd : ℚ) (h1 : 0 < n) (_h2 : 1 ≤ maxE)
    (_h3 : 0 < fd) :
    (divisorSeq n maxE fd).length = n + maxE ∧
    (divisorSeq n maxE fd).getD 0 0 = fd ∧
    (∀ i : ℕ, 1 ≤ i → i < n + maxE → (divisorSeq n maxE fd).getD i 0 = 2 * (i : ℚ) + 1) ∧
    (∀ i j : ℕ, 1 ≤ i → i < j → j < n + maxE →
      (divisorSeq n maxE fd).getD i 0 < (divisorSeq n maxE fd).getD j 0) := by
  refine ⟨divisorSeq_length n maxE fd, ?_, ?_, ?_⟩
  · rw [divisorSeq_getD n maxE fd 0 (by omega)]; simp
  · intro i hi1 hi2
    rw [divisorSeq_getD n maxE fd i hi2, if_neg (by omega)]
    ring
  · intro i j hi1 hij hj
    rw [divisorSeq_getD n maxE fd i (by omega), if_neg (by omega),
      divisorSeq_getD n maxE fd j hj, if_neg (by omega)]
    have : (i : ℚ) < (j : ℚ) := by exact_mod_cast hij
    linarith

theorem divisor_seq_correct_witness :
    (divisorSeq 1 6 (6/5)).length = 1 + 6 ∧ (divisorSeq 1 6 (6/5)).getD 0 0 = 6/5 :=
  ⟨(divisor_seq_correct 1 6 (6/5) (by decide) (by decide) (by norm_num)).1,
   (divisor_seq_correct 1 6 (6/5) (by decide) (by decide) (by norm_num)).2.1⟩

/-- C9 (amended): the computation fails with a validation error iff the
metadata arrays mismatch the vote array's length or `numSeats ≤ 0`;
`firstDivisor` and `maxExtraSeats` are not validated (the latter is fixed
at 6).  All checks happen before any output is produced. -/
theorem validation_amended (votes : List ℕ) (names colors : List String) (ns : ℤ)
    (fd : ℚ) :
    (calcSaintLague votes names colors ns fd).isOk = true ↔
      (names.length = votes.length ∧ colors.length = votes.length ∧ 0 < ns) := by
  unfold calcSaintLague validInput
  by_cases h : (names.length == votes.length) && (colors.length == votes.length)
      && decide (0 < ns)
  · simp only [h, if_true]
    simp only [Bool.and_eq_true, beq_iff_eq, decide_eq_true_eq] at h
    simpa [Except.isOk, Except.toBool] using ⟨h.1.1, h.1.2, h.2⟩
  · simp only [h, if_false]
    simp only [Bool.and_eq_true, beq_iff_eq, decide_eq_true_eq] at h
    simp only [Except.isOk, Except.toBool]
    constructor
    · intro hfalse; cases hfalse
    · intro ⟨ha, hb, hc⟩; exact absurd ⟨⟨ha, hb⟩, hc⟩ h

/-- C9 counterexample: `firstDivisor = -1 ≤ 0` is accepted, so the claimed
"fails if `firstDivisor ≤ 0`" direction is false of the code. -/
theorem validation_counterexample :
    (calcSaintLague [1] ["A"] ["r"] 1 (-1)).isOk = true ∧ (-1 : ℚ) ≤ 0 :=
  ⟨rfl, by norm_num⟩

/-- C6 counterexample: with `votes = [1, 1]` and one seat, the coordinates
`(0,0)` and `(1,0)` have exactly equal quotients, yet the ranking places
party 1 first (descending flattened index), not party 0 as the claimed
ascending tie-break would; the seat goes to party 1. -/
theorem tie_break_counterexample :
    quotients [1, 1] (divisors 1 (6/5)) (0, 0) = quotients [1, 1] (divisors 1 (6/5)) (1, 0) ∧
    (globalRanking [1, 1] 1 (6/5)).getD 0 (5, 5) = (1, 0) ∧
    (globalRanking [1, 1] 1 (6/5)).getD 1 (5, 5) = (0, 0) ∧
    seats_per_party [1, 1] 1 (6/5) 0 = 0 ∧ seats_per_party [1, 1] 1 (6/5) 1 = 1 := by
  with_unfolding_all decide

/-- C7 counterexample: with `firstDivisor = 4 > 3` the divisor sequence is not
increasing at index 0, and the single party's one seat is won at divisor rank
1, not rank 0: the set of won ranks is `{1}`, not `{0}`. -/
theorem rank_contiguity_counterexample :
    seats_per_party [7] 1 4 0 = 1 ∧
    ((0, 1) : ℕ × ℕ) ∈ (globalRanking [7] 1 4).take 1 ∧
    ¬ (((0, 0) : ℕ × ℕ) ∈ (globalRanking [7] 1 4).take 1) := by
  with_unfolding_all decide

lemma cnt_add (q : ℕ → Bool) (b : ℕ) : ∀ a s, cnt q s (a + b) = cnt q s a + cnt q (s + a) b := by
  intro a
  induction a with
  | zero => intro s; simp [cnt]
  | succ a ih =>
    intro s
    have h1 : a + 1 + b = (a + b) + 1 := by omega
    rw [h1]
    show (if q (s + 1) then 1 else 0) + cnt q (s + 1) (a + b) = _
    rw [ih (s + 1)]
    show _ = ((if q (s + 1) then 1 else 0) + cnt q (s + 1) a) + cnt q (s + (a + 1)) b
    have h2 : s + 1 + a = s + (a + 1) := by omega
    rw [h2]
    omega

lemma cnt_mono (q : ℕ → Bool) (s : ℕ) {a b : ℕ} (h : a ≤ b) : cnt q s a ≤ cnt q s b := by
  have hb : b = a + (b - a) := by omega
  rw [hb, cnt_add]
  omega

lemma cnt_succ_right (q : ℕ → Bool) (s len : ℕ) :
    cnt q s (len + 1) = cnt q s len + (if q (s + len + 1) then 1 else 0) := by
  rw [cnt_add q 1 len s]
  have h2 : cnt q (s + len) 1 = (if q (s + len + 1) then 1 else 0) := by
    show (if q (s + len + 1) then 1 else 0) + cnt q (s + len + 1) 0 = _
    simp [cnt]
  rw [h2]

lemma cnt_pos_of_last (q : ℕ → Bool) (s len : ℕ) (h0 : 0 < len)
    (hq : q (s + len) = true) : 0 < cnt q s len := by
  obtain ⟨m, rfl⟩ : ∃ m, len = m + 1 := ⟨len - 1, by omega⟩
  rw [cnt_succ_right, show s + m + 1 = s + (m + 1) from by omega, hq]
  simp

/-- The loop `walkF` returns exactly the endpoint whose walked window contains
the wanted number of hits, the last step being a hit, provided every step of
the window has a valid index (test `qb`, lifted into `q`). -/
lemma walkF_eq_some (q : ℕ → Option Bool) (qb : ℕ → Bool) :
    ∀ fuel s w s', s ≤ s' → s' - s ≤ fuel →
      (∀ j, s < j → j ≤ s' → q j = some (qb j)) →
      cnt qb s (s' - s) = w → (w = 0 → s' = s) → (0 < w → qb s' = true) →
      walkF q fuel s w = some s' := by
  intro fuel
  induction fuel with
  | zero =>
    intro s w s' hss hfuel _ hcnt hw0 _
    have hse : s' = s := by omega
    subst hse
    rw [Nat.sub_self] at hcnt
    have hw : w = 0 := by simpa [cnt] using hcnt.symm
    subst hw
    rfl
  | succ fuel ih =>
    intro s w s' hss hfuel hvalid hcnt hw0 hwq
    cases w with
    | zero =>
      have hse := hw0 rfl
      subst hse
      rfl
    | succ w =>
      have hlt : s < s' := by
        rcases Nat.eq_or_lt_of_le hss with h | h
        · exfalso
          subst h
          rw [Nat.sub_self] at hcnt
          simp [cnt] at hcnt
        · exact h
      have hdecomp : cnt qb s (s' - s) =
          (if qb (s + 1) then 1 else 0) + cnt qb (s + 1) (s' - s - 1) := by
        obtain ⟨m, hm⟩ : ∃ m, s' - s = m + 1 := ⟨s' - s - 1, by omega⟩
        rw [hm, Nat.add_sub_cancel]
        rfl
      have hq1 : q (s + 1) = some (qb (s + 1)) := hvalid (s + 1) (by omega) (by omega)
      show (match q (s + 1) with
        | none => none
        | some true => walkF q fuel (s + 1) w
        | some false => walkF q fuel (s + 1) (w + 1)) = some s'
      rw [hq1]
      by_cases hb : qb (s + 1) = true
      · rw [hb]
        show walkF q fuel (s + 1) w = some s'
        refine ih (s + 1) w s' hlt (by omega)
          (fun j h1 h2 => hvalid j (by omega) h2) ?_ ?_ ?_
        · rw [hdecomp, if_pos hb] at hcnt
          rw [show s' - (s + 1) = s' - s - 1 from by omega]
          omega
        · intro hw
          subst hw
          by_contra hne
          have hqlast : qb s' = true := hwq (by omega)
          have hpos : 0 < cnt qb (s + 1) (s' - s - 1) := by
            refine cnt_pos_of_last qb (s + 1) (s' - s - 1) (by omega) ?_
            rw [show s + 1 + (s' - s - 1) = s' from by omega]
            exact hqlast
          rw [hdecomp, if_pos hb] at hcnt
          omega
        · intro _
          exact hwq (by omega)
      · have hbf : qb (s + 1) = false := by simpa using hb
        rw [hbf]
        show walkF q fuel (s + 1) (w + 1) = some s'
        refine ih (s + 1) (w + 1) s' hlt (by omega)
          (fun j h1 h2 => hvalid j (by omega) h2) ?_ ?_ ?_
        · rw [hdecomp, hbf] at hcnt
          simp at hcnt
          rw [show s' - (s + 1) = s' - s - 1 from by omega]
          omega
        · intro h
          exact absurd h (Nat.succ_ne_zero w)
        · intro _
          exact hwq (by omega)

/-- `leastFrom` finds the least satisfying argument. -/
lemma leastFrom_eq_some (q : ℕ → Bool) :
    ∀ fuel s s', s ≤ s' → s' - s < fuel → q s' = true →
      (∀ t, s ≤ t → t < s' → q t = false) → leastFrom q fuel s = some s' := by
  intro fuel
  induction fuel with
  | zero =>
    intro s s' _ h _ _
    omega
  | succ fuel ih =>
    intro s s' hss hfuel hq hmin
    by_cases hqs : q s = true
    · have hse : s = s' := by
        by_contra hne
        have hlt : s < s' := by omega
        rw [hmin s le_rfl hlt] at hqs
        exact absurd hqs (by simp)
      subst hse
      show (if q s then some s else leastFrom q fuel (s + 1)) = some s
      rw [if_pos hqs]
    · have hlt : s < s' := by
        rcases Nat.eq_or_lt_of_le hss with h | h
        · exact absurd (h ▸ hq) hqs
        · exact h
      show (if q s then some s else leastFrom q fuel (s + 1)) = some s'
      rw [if_neg hqs]
      exact ih (s + 1) s' (by omega) (by omega) hq (fun t ht1 ht2 => hmin t (by omega) ht2)

lemma pdList_length (votes : List ℕ) (n : ℕ) (fd : ℚ) :
    (pdList votes n fd).length = (globalRanking votes n fd).length :=
  List.length_map _ _

lemma divisors_length (n : ℕ) (fd : ℚ) :
    (divisors n fd).length = n + max_extra_seats :=
  divisorSeq_length n max_extra_seats fd

lemma seats_per_party_le (votes : List ℕ) (n : ℕ) (fd : ℚ) (p : ℕ) :
    seats_per_party votes n fd p ≤ n := by
  unfold seats_per_party
  refine le_trans (List.length_filter_le _ _) ?_
  rw [List.length_take]
  omega

lemma u32add_eq (a b : ℕ) (h : a + b < U32) : u32add a b = a + b := by
  unfold u32add U32 at *
  omega

lemma u32sub_eq (a b : ℕ) (hb : b ≤ a) (ha : a < U32) : u32sub a b = a - b := by
  unfold u32sub U32 at *
  omega

lemma u32sub_underflow (a b : ℕ) (h1 : a < b) (h2 : b ≤ U32) :
    u32sub a b = U32 - (b - a) := by
  unfold u32sub U32 at *
  omega

/-- Inside the awarded region the loop's backward step test (Python index
semantics) agrees with the spec's plain one. -/
lemma gainStep_eq_spec (votes : List ℕ) (n : ℕ) (fd : ℚ) (p j : ℕ)
    (hj1 : 1 ≤ j) (hj : j ≤ n) (hn : n ≤ (pdList votes n fd).length) :
    gainStep votes n fd p j = some (specGainStep votes n fd p j) := by
  have hcond : -(((pdList votes n fd).length : ℤ)) ≤ (n : ℤ) - (j : ℤ) ∧
      (n : ℤ) - (j : ℤ) < ((pdList votes n fd).length : ℤ) := by
    constructor <;> omega
  have hpy : pyIdx (pdList votes n fd).length ((n : ℤ) - (j : ℤ)) = n - j := by
    unfold pyIdx
    rw [if_neg (by omega)]
    omega
  unfold gainStep partyAt
  rw [if_pos hcond, Option.map_some', hpy]
  rfl

/-- While the forward walk stays inside the ranking, the loop's step test
agrees with the spec's plain one. -/
lemma lossStep_eq_spec (votes : List ℕ) (n : ℕ) (fd : ℚ) (p j : ℕ)
    (hn0 : 1 ≤ n) (hjlen : n - 1 + j < (pdList votes n fd).length) :
    lossStep votes n fd p j = some (specLossStep votes n fd p j) := by
  have hcond : -(((pdList votes n fd).length : ℤ)) ≤ (n : ℤ) - 1 + (j : ℤ) ∧
      (n : ℤ) - 1 + (j : ℤ) < ((pdList votes n fd).length : ℤ) := by
    constructor <;> omega
  have hpy : pyIdx (pdList votes n fd).length ((n : ℤ) - 1 + (j : ℤ)) = n - 1 + j := by
    unfold pyIdx
    rw [if_neg (by omega)]
    omega
  unfold lossStep partyAt
  rw [if_pos hcond, Option.map_some', hpy]
  rfl

/-- C2: whenever the backward walk completes inside the awarded region and the
required rank stays inside the divisor range (otherwise the code raises
`IndexError` and produces no margin), the gain loop computes exactly the
spec's formula: the walked count is the least number of positions whose
window holds `g` non-`p` positions, `Qstar` is the quotient at ranking
position `numSeats - walked`, `k` is `seatsPerParty[p] + walked` (own skipped
positions included), and the margin is
`ceil((Qstar - votes[p]/divisors[k-1]) * divisors[k-1])`. -/
theorem gain_margin_formula (votes : List ℕ) (n : ℕ) (fd : ℚ) (p g : ℕ)
    (hg : 1 ≤ g) (_hg5 : g ≤ max_extra_seats - 1)
    (hp : p < votes.length)
    (hn : n ≤ (pdList votes n fd).length)
    (hn32 : n + max_extra_seats < 4294967296)
    (hex : ∃ s, s ≤ n ∧ cnt (specGainStep votes n fd p) 0 s = g ∧
      seats_per_party votes n fd p + s ≤ n + max_extra_seats) :
    gainMargin votes n fd p g = specGainMargin votes n fd p g ∧
      (gainMargin votes n fd p g).isSome = true := by
  classical
  obtain ⟨sw, hsw, hsc, hscap⟩ := hex
  have hexists : ∃ s, cnt (specGainStep votes n fd p) 0 s = g := ⟨sw, hsc⟩
  have hs0 : cnt (specGainStep votes n fd p) 0 (Nat.find hexists) = g := Nat.find_spec hexists
  have hs0min : ∀ t, t < Nat.find hexists → cnt (specGainStep votes n fd p) 0 t ≠ g :=
    fun t ht => Nat.find_min hexists ht
  have hs0le : Nat.find hexists ≤ sw := Nat.find_min' hexists hsc
  have hs0n : Nat.find hexists ≤ n := le_trans hs0le hsw
  have hs0cap : seats_per_party votes n fd p + Nat.find hexists ≤ n + max_extra_seats := by
    omega
  have hs0pos : 0 < Nat.find hexists := by
    rcases Nat.eq_zero_or_pos (Nat.find hexists) with h | h
    · exfalso
      rw [h] at hs0
      simp [cnt] at hs0
      omega
    · exact h
  have hq0 : specGainStep votes n fd p (Nat.find hexists) = true := by
    by_contra hq
    have hqf : specGainStep votes n fd p (Nat.find hexists) = false := by simpa using hq
    have hdec : cnt (specGainStep votes n fd p) 0 (Nat.find hexists)
        = cnt (specGainStep votes n fd p) 0 (Nat.find hexists - 1) := by
      obtain ⟨m, hm⟩ : ∃ m, Nat.find hexists = m + 1 := ⟨Nat.find hexists - 1, by omega⟩
      rw [hm, cnt_succ_right, show (0 : ℕ) + m + 1 = m + 1 from by omega, ← hm, hqf]
      simp [hm]
    exact hs0min (Nat.find hexists - 1) (by omega) (hdec ▸ hs0)
  have hmono : ∀ t, t < Nat.find hexists → cnt (specGainStep votes n fd p) 0 t < g := by
    intro t ht
    have hle : cnt (specGainStep votes n fd p) 0 t ≤ cnt (specGainStep votes n fd p) 0
        (Nat.find hexists) := cnt_mono _ _ (le_of_lt ht)
    have hne := hs0min t ht
    omega
  have hwalk : seats_to_overtake votes n fd p g = some (Nat.find hexists) := by
    refine walkF_eq_some (gainStep votes n fd p) (specGainStep votes n fd p) _ 0 g
      (Nat.find hexists) (Nat.zero_le _) (by omega)
      (fun j h1 h2 => gainStep_eq_spec votes n fd p j h1 (by omega) hn) ?_ ?_ ?_
    · rw [Nat.sub_zero]
      exact hs0
    · intro h; omega
    · intro _; exact hq0
  have hfind : specGainWalked votes n fd p g = some (Nat.find hexists) := by
    unfold specGainWalked
    refine leastFrom_eq_some _ _ 0 (Nat.find hexists) (Nat.zero_le _) (by omega) ?_ ?_
    · simp [hs0]
    · intro t _ ht
      have hlt := hmono t ht
      simp only [beq_eq_false_iff_ne, ne_eq]
      omega
  have hu1 : u32add (seats_per_party votes n fd p) (Nat.find hexists) =
      seats_per_party votes n fd p + Nat.find hexists := by
    refine u32add_eq _ _ ?_
    unfold U32
    omega
  have hu2 : u32sub (seats_per_party votes n fd p + Nat.find hexists) 1 =
      seats_per_party votes n fd p + Nat.find hexists - 1 := by
    refine u32sub_eq _ _ (by omega) ?_
    unfold U32
    omega
  have hrklen : (pdList votes n fd).length = (globalRanking votes n fd).length :=
    pdList_length votes n fd
  have hdl : (divisors n fd).length = n + max_extra_seats := divisors_length n fd
  have hcondC : (-(((globalRanking votes n fd).length : ℤ)) ≤
        (n : ℤ) - (Nat.find hexists : ℤ) ∧
        (n : ℤ) - (Nat.find hexists : ℤ) < ((globalRanking votes n fd).length : ℤ)) ∧
      p < votes.length ∧
      seats_per_party votes n fd p + Nat.find hexists - 1 < (divisors n fd).length := by
    refine ⟨⟨by omega, by omega⟩, hp, ?_⟩
    rw [hdl]
    omega
  have hcondS : p < votes.length ∧
      seats_per_party votes n fd p + Nat.find hexists - 1 < (divisors n fd).length ∧
      n - Nat.find hexists < (globalRanking votes n fd).length := by
    refine ⟨hp, ?_, by omega⟩
    rw [hdl]
    omega
  have hpy : pyIdx (globalRanking votes n fd).length
      ((n : ℤ) - (Nat.find hexists : ℤ)) = n - Nat.find hexists := by
    unfold pyIdx
    rw [if_neg (by omega)]
    omega
  constructor
  · unfold gainMargin specGainMargin
    rw [hwalk, hfind]
    simp only [Option.some_bind]
    unfold gainMarginBody
    rw [hu1, hu2, if_pos hcondC, if_pos hcondS, hpy]
    rfl
  · unfold gainMargin
    rw [hwalk]
    simp only [Option.some_bind]
    unfold gainMarginBody
    rw [hu1, hu2, if_pos hcondC]
    rfl

theorem gain_margin_formula_witness :
    gainMargin [10, 5] 2 (6/5) 0 1 = specGainMargin [10, 5] 2 (6/5) 0 1 :=
  (gain_margin_formula [10, 5] 2 (6/5) 0 1 (by decide) (by decide) (by decide)
    (by with_unfolding_all decide) (by decide)
    ⟨1, by with_unfolding_all decide⟩).1

/-- C4 (amended): whenever the forward walk completes inside the ranking and
passes no more positions than `p` holds seats (otherwise the uint32 index
underflows and the code raises `IndexError`, producing no margin), the loss
margin equals `ceil((votes[p]/divisors[k] - Qstar) * divisors[k])` where the
walk is as the claim says but `k = seatsPerParty[p] - walked`, with `walked`
counting every passed position including `p`'s own — not `k = seats - l`. -/
theorem loss_margin_formula_amended (votes : List ℕ) (n : ℕ) (fd : ℚ) (p l : ℕ)
    (hl : 1 ≤ l) (hn0 : 1 ≤ n) (hp : p < votes.length) (hn32 : n < 4294967296)
    (hex : ∃ s, cnt (specLossStep votes n fd p) 0 s = l ∧
      n - 1 + s < (pdList votes n fd).length ∧ s ≤ seats_per_party votes n fd p) :
    lossMargin votes n fd p l = amendedLossMargin votes n fd p l ∧
      (lossMargin votes n fd p l).isSome = true := by
  classical
  obtain ⟨sw, hsc, hswlen, hswseats⟩ := hex
  have hexists : ∃ s, cnt (specLossStep votes n fd p) 0 s = l := ⟨sw, hsc⟩
  have hs0 : cnt (specLossStep votes n fd p) 0 (Nat.find hexists) = l := Nat.find_spec hexists
  have hs0min : ∀ t, t < Nat.find hexists → cnt (specLossStep votes n fd p) 0 t ≠ l :=
    fun t ht => Nat.find_min hexists ht
  have hs0le : Nat.find hexists ≤ sw := Nat.find_min' hexists hsc
  have hs0len : n - 1 + Nat.find hexists < (pdList votes n fd).length := by omega
  have hs0seats : Nat.find hexists ≤ seats_per_party votes n fd p := by omega
  have hs0pos : 0 < Nat.find hexists := by
    rcases Nat.eq_zero_or_pos (Nat.find hexists) with h | h
    · exfalso
      rw [h] at hs0
      simp [cnt] at hs0
      omega
    · exact h
  have hq0 : specLossStep votes n fd p (Nat.find hexists) = true := by
    by_contra hq
    have hqf : specLossStep votes n fd p (Nat.find hexists) = false := by simpa using hq
    have hdec : cnt (specLossStep votes n fd p) 0 (Nat.find hexists)
        = cnt (specLossStep votes n fd p) 0 (Nat.find hexists - 1) := by
      obtain ⟨m, hm⟩ : ∃ m, Nat.find hexists = m + 1 := ⟨Nat.find hexists - 1, by omega⟩
      rw [hm, cnt_succ_right, show (0 : ℕ) + m + 1 = m + 1 from by omega, ← hm, hqf]
      simp [hm]
    exact hs0min (Nat.find hexists - 1) (by omega) (hdec ▸ hs0)
  have hmono : ∀ t, t < Nat.find hexists → cnt (specLossStep votes n fd p) 0 t < l := by
    intro t ht
    have hle : cnt (specLossStep votes n fd p) 0 t ≤ cnt (specLossStep votes n fd p) 0
        (Nat.find hexists) := cnt_mono _ _ (le_of_lt ht)
    have hne := hs0min t ht
    omega
  have hwalk : seats_to_fall_behind votes n fd p l = some (Nat.find hexists) := by
    refine walkF_eq_some (lossStep votes n fd p) (specLossStep votes n fd p) _ 0 l
      (Nat.find hexists) (Nat.zero_le _) (by omega)
      (fun j h1 h2 => lossStep_eq_spec votes n fd p j hn0 (by omega)) ?_ ?_ ?_
    · rw [Nat.sub_zero]
      exact hs0
    · intro h; omega
    · intro _; exact hq0
  have hfind : specLossWalked votes n fd p l = some (Nat.find hexists) := by
    unfold specLossWalked
    refine leastFrom_eq_some _ _ 0 (Nat.find hexists) (Nat.zero_le _) (by omega) ?_ ?_
    · simp [hs0]
    · intro t _ ht
      have hlt := hmono t ht
      simp only [beq_eq_false_iff_ne, ne_eq]
      omega
  have hseats_le := seats_per_party_le votes n fd p
  have hu : u32sub (seats_per_party votes n fd p) (Nat.find hexists) =
      seats_per_party votes n fd p - Nat.find hexists := by
    refine u32sub_eq _ _ hs0seats ?_
    unfold U32
    omega
  have hrklen : (pdList votes n fd).length = (globalRanking votes n fd).length :=
    pdList_length votes n fd
  have hdl : (divisors n fd).length = n + max_extra_seats := divisors_length n fd
  have hcondC : (-(((globalRanking votes n fd).length : ℤ)) ≤
        (n : ℤ) - 1 + (Nat.find hexists : ℤ) ∧
        (n : ℤ) - 1 + (Nat.find hexists : ℤ) < ((globalRanking votes n fd).length : ℤ)) ∧
      p < votes.length ∧
      seats_per_party votes n fd p - Nat.find hexists < (divisors n fd).length := by
    refine ⟨⟨by omega, by omega⟩, hp, ?_⟩
    rw [hdl]
    omega
  have hcondA : p < votes.length ∧
      Nat.find hexists ≤ seats_per_party votes n fd p ∧
      seats_per_party votes n fd p - Nat.find hexists < (divisors n fd).length ∧
      n - 1 + Nat.find hexists < (globalRanking votes n fd).length := by
    refine ⟨hp, hs0seats, ?_, by omega⟩
    rw [hdl]
    omega
  have hpy : pyIdx (globalRanking votes n fd).length
      ((n : ℤ) - 1 + (Nat.find hexists : ℤ)) = n - 1 + Nat.find hexists := by
    unfold pyIdx
    rw [if_neg (by omega)]
    omega
  constructor
  · unfold lossMargin amendedLossMargin
    rw [hwalk, hfind]
    simp only [Option.some_bind]
    unfold lossMarginBody
    rw [hu, if_pos hcondC, if_pos hcondA, hpy]
    rfl
  · unfold lossMargin
    rw [hwalk]
    simp only [Option.some_bind]
    unfold lossMarginBody
    rw [hu, if_pos hcondC]
    rfl

theorem loss_margin_formula_amended_witness :
    lossMargin [10, 5] 2 (6/5) 1 1 = amendedLossMargin [10, 5] 2 (6/5) 1 1 :=
  (loss_margin_formula_amended [10, 5] 2 (6/5) 1 1 (by decide) (by decide) (by decide)
    (by decide) ⟨1, by with_unfolding_all decide⟩).1

/-- C10 counterexample: at `votes = [10, 5]`, `numSeats = 2`, `p = 0`, `l = 1`
the walk passes 3 positions while party 0 holds 1 seat; the claimed silent
Python-style wrap does not happen — no loss margin is produced at all. -/
theorem loss_wrap_counterexample :
    seats_to_fall_behind [10, 5] 2 (6/5) 0 1 = some 3 ∧
    seats_per_party [10, 5] 2 (6/5) 0 = 1 ∧
    lossMargin [10, 5] 2 (6/5) 0 1 = none := by
  with_unfolding_all decide

/-- C10 (amended): when the loss walk passes more positions than `p` holds
seats, `total_wanted_seats = seats_per_party[p] - seats_to_fall_behind`
underflows as `np.uint32` to `2^32 - (walked - seats)`, a huge nonnegative
out-of-range index: the lookup raises `IndexError` and the computation fails
with no margin produced, rather than wrapping via Python negative indexing. -/
theorem loss_underflow_fails (votes : List ℕ) (n : ℕ) (fd : ℚ) (p l s : ℕ)
    (hwalk : seats_to_fall_behind votes n fd p l = some s)
    (hs : seats_per_party votes n fd p < s)
    (hsU : s + (divisors n fd).length ≤ 4294967296) :
    lossMargin votes n fd p l = none := by
  unfold lossMargin
  rw [hwalk]
  simp only [Option.some_bind]
  unfold lossMarginBody
  have hu : u32sub (seats_per_party votes n fd p) s =
      4294967296 - (s - seats_per_party votes n fd p) := by
    unfold u32sub U32
    omega
  rw [hu]
  split
  · rename_i hcond
    exact absurd hcond.2.2 (by omega)
  · rfl

theorem loss_underflow_fails_witness :
    seats_to_fall_behind [10, 5] 2 (6/5) 0 1 = some 3 ∧
    lossMargin [10, 5] 2 (6/5) 0 1 = none :=
  ⟨by with_unfolding_all decide,
   loss_underflow_fails [10, 5] 2 (6/5) 0 1 3
     (by with_unfolding_all decide) (by with_unfolding_all decide)
     (by with_unfolding_all decide)⟩

/-- C3 (code bug): at `votes = [10, 5]`, `numSeats = 2`, the computed margin
for party 1 to gain one seat is 37, but adding only 36 votes already yields
the extra seat (party 1 goes from 1 seat to 2): the margin is not minimal, so
the round-trip property fails. -/
theorem gain_margin_not_minimal :
    gainMargin [10, 5] 2 (6/5) 1 1 = some 37 ∧
    seats_per_party [10, 5] 2 (6/5) 1 = 1 ∧
    seats_per_party [10, 5 + 36] 2 (6/5) 1 = 1 + 1 := by
  with_unfolding_all decide

/-- C5 (code bug): the gain-margin table contains a negative entry: at
`votes = [100, 1]`, `numSeats = 4`, party 0 already holds every seat, the
backward walk wraps (a genuine Python negative index into the ranking) to the
list's tail, and the computed margin for one extra seat is −99, printed as is.
The code has no clamp to zero. -/
theorem gain_margin_negative_entry :
    gainMargin [100, 1] 4 (6/5) 0 1 = some (-99) ∧ (-99 : ℤ) < 0 := by
  with_unfolding_all decide

/-- C4 counterexample: at `votes = [10, 5]`, `numSeats = 2`, `p = 0`, `l = 1`,
the spec's formula with `k = seatsPerParty[p] - l = 0` gives 8, but the code
computes no margin at all: it uses `k = seatsPerParty[p] - walked`, here the
uint32 underflow of `1 - 3`, and raises `IndexError`. -/
theorem loss_margin_formula_counterexample :
    lossMargin [10, 5] 2 (6/5) 0 1 = none ∧
    specLossMargin [10, 5] 2 (6/5) 0 1 = some 8 ∧
    lossMargin [10, 5] 2 (6/5) 0 1 ≠ specLossMargin [10, 5] 2 (6/5) 0 1 := by
  with_unfolding_all decide

end Election
